import Mathlib

/-!
# Verification of the gitnav core against its specification

This file gives a shallow embedding, in Lean 4, of the core logic of the
`gitnav` repository (a git-repository scanner with a TTL cache and a
preview renderer), and proves or refutes the frozen claims about it.

Embedded components and their sources:
* `format_duration` — `src/preview.rs`, the relative-time formatter.
* `Component`, `FsNode`, `visit`, `visitIg`, `collectRepos`,
  `scan_repos`, `scan_reposIg`, `GitRepo.new` — `src/scanner.rs`, the
  bounded-depth repository scanner.  The directory walker of the
  `ignore` crate is modelled as a pre-order traversal of a finite
  filesystem tree that yields entries at depth at most `max_depth`, with
  the scan root at depth 0.  The crate's ignore-file filtering (enabled
  by default; the source disables only the `hidden` filter) and its
  silent skipping of unreadable entries are modelled abstractly by
  `visitIg`, whose `skip` parameter prunes arbitrary non-root subtrees:
  whatever rules and errors are in effect, the real walk is `visitIg`
  at some `skip`.  When the tree holds no ignore files and the global
  ignore configuration is empty, no rule applies and the walk is the
  unfiltered `visit` (`visitIg` at the constantly-false `skip`).
* `RepoRecord`, `recordLine`, `serializeRepos`, `rustLines`, `parseLine`,
  `loadRepos`, `load`, `is_valid`, `clearCache`, `sha256Hex`,
  `fingerprint`, `cacheFileName` — `src/cache.rs`, the cache layer.
  Rust strings are modelled as `List Char`; `str::lines` (newline
  splitting with terminator semantics and `\r\n` handling) is modelled
  byte-faithfully by `rustLines`.
-/

/-! ## Scanner data model (`src/scanner.rs`) -/

/-- One path component as the OS hands it to the program: either valid
UTF-8 (so `to_str` succeeds) or not. -/
inductive Component where
  | valid (s : String)
  | invalid
deriving DecidableEq

/-- A node of the filesystem tree seen by the walker: a regular file, or a
directory with a list of named children in discovery order.  Symbolic
links are absent because the walker is built with `follow_links(false)`. -/
inductive FsNode where
  | file : FsNode
  | dir : List (Component × FsNode) → FsNode

/-- Returns `true` exactly on directories; models `Path::is_dir`. -/
def FsNode.isDir : FsNode → Bool
  | .file => false
  | .dir _ => true

/-- Model of `GitRepo` from `src/scanner.rs`: repository name and path.  A path is
its list of components from the filesystem root. -/
structure GitRepo where
  name : String
  path : List Component
deriving DecidableEq

/-- Model of `GitRepo::new`: the name is the final path component when it exists
and is valid UTF-8, and the literal `"unknown"` otherwise
(`path.file_name().and_then(|n| n.to_str()).unwrap_or("unknown")`). -/
def GitRepo.new (path : List Component) : GitRepo :=
  { name :=
      match path.getLast? with
      | some (.valid s) => s
      | _ => "unknown"
    path := path }

mutual

/-- The serial walk of the `ignore` crate with `max_depth(Some d)` when
no ignore rule is in effect (no ignore files in the tree, empty global
configuration) and no entry errors: yields the visited entries
(path, node) in pre-order; the root `base` is at depth 0 and entries
strictly deeper than `d` are not yielded.  `hidden(false)` is set in the
source, so no entry is skipped for having a leading-dot name.  The walk
under arbitrary ignore rules is `visitIg` below. -/
def visit (base : List Component) (d : Nat) : FsNode → List (List Component × FsNode)
  | .file => [(base, .file)]
  | .dir es =>
      (base, .dir es) ::
        (match d with
         | 0 => []
         | d' + 1 => visitEntries base d' es)

/-- Walks the children of a directory, each with the remaining depth
budget `d`. -/
def visitEntries (base : List Component) (d : Nat) :
    List (Component × FsNode) → List (List Component × FsNode)
  | [] => []
  | (c, t) :: es => visit (base ++ [c]) d t ++ visitEntries base d es

end

/-- The body of the walker loop in `scan_repos`: an entry produces a
record exactly when its final component is the (valid UTF-8) name `.git`
and the entry is a directory; the record is built from the parent path. -/
def collectRepos (visited : List (List Component × FsNode)) : List GitRepo :=
  visited.filterMap fun e =>
    if e.1.getLast? = some (Component.valid ".git") ∧ e.2.isDir = true then
      some (GitRepo.new e.1.dropLast)
    else none

/-- Lexicographic comparison of character lists by codepoint; on UTF-8
strings this coincides with Rust's byte-wise `Ord` on `String`. -/
def charListLe : List Char → List Char → Bool
  | [], _ => true
  | _ :: _, [] => false
  | a :: as, b :: bs =>
      if a.toNat < b.toNat then true
      else if b.toNat < a.toNat then false
      else charListLe as bs

/-- The key comparison of `repos.sort_by(|a, b| a.name.cmp(&b.name))`. -/
def nameLe (a b : GitRepo) : Bool := charListLe a.name.data b.name.data

/-- Model of `repos.sort_by(|a, b| a.name.cmp(&b.name))`: a stable sort by name.
Rust's `sort_by` is stable, so any stable sort by the same key is an
exact model; insertion sort is used here. -/
def sortByName (l : List GitRepo) : List GitRepo :=
  l.insertionSort (fun a b => nameLe a b = true)

/-- Model of `scan_repos` from `src/scanner.rs` on an existing root: walk to depth
`max_depth`, keep the `.git`-directory markers, record their parents,
sort by name. -/
def scan_repos (base : List Component) (t : FsNode) (max_depth : Nat) : List GitRepo :=
  sortByName (collectRepos (visit base max_depth t))

/-- Relation `RepoAt t p`: the directory reached from `t` along the component path
`p` has a direct child named `.git` that is itself a directory.  This is
the specification-level notion of "repository root at relative path `p`";
an entry of a directory is allowed to be any of its listed children. -/
inductive RepoAt : FsNode → List Component → Prop where
  | here {es : List (Component × FsNode)} (e : Component × FsNode)
      (he : e ∈ es) (hname : e.1 = Component.valid ".git") (hdir : e.2.isDir = true) :
      RepoAt (.dir es) []
  | there {es : List (Component × FsNode)} {c : Component} {t : FsNode}
      {p : List Component} (hmem : (c, t) ∈ es) (h : RepoAt t p) :
      RepoAt (.dir es) (c :: p)

def MemSpec (base : List Component) (d : Nat) (t : FsNode) : Prop :=
  ∀ r, r ∈ collectRepos (visit base d t) ↔
    (base.getLast? = some (Component.valid ".git") ∧ t.isDir = true ∧
      r = GitRepo.new base.dropLast)
    ∨ ∃ p, RepoAt t p ∧ p.length < d ∧ r = GitRepo.new (base ++ p)

def MemEntriesSpec (base : List Component) (d : Nat)
    (es : List (Component × FsNode)) : Prop :=
  ∀ r, r ∈ collectRepos (visitEntries base d es) ↔
    (∃ e ∈ es, e.1 = Component.valid ".git" ∧ e.2.isDir = true ∧ r = GitRepo.new base)
    ∨ ∃ c t p, (c, t) ∈ es ∧ RepoAt t p ∧ p.length < d ∧
        r = GitRepo.new (base ++ c :: p)

mutual

/-- The serial walk of the `ignore` crate under an arbitrary filter
`skip`: a non-root entry with `skip path node = true` is neither yielded
nor descended into.  This abstracts both the crate's ignore-file
machinery (`.ignore` everywhere and git-related files inside
repositories, all enabled by default — the source only disables the
`hidden` filter) and the walker's silent skipping of unreadable entries:
whatever rules and errors are in effect at run time, the walk performed
by the crate equals `visitIg` at some `skip`; with no ignore files and
no errors it is `visitIg` at the constantly-false `skip`, which
coincides with `visit`. -/
def visitIg (skip : List Component → FsNode → Bool) (base : List Component)
    (d : Nat) : FsNode → List (List Component × FsNode)
  | .file => [(base, .file)]
  | .dir es =>
      (base, .dir es) ::
        (match d with
         | 0 => []
         | d' + 1 => visitIgEntries skip base d' es)

/-- Walks the children of a directory under the filter `skip`, each with
the remaining depth budget `d`. -/
def visitIgEntries (skip : List Component → FsNode → Bool) (base : List Component)
    (d : Nat) : List (Component × FsNode) → List (List Component × FsNode)
  | [] => []
  | (c, t) :: es =>
      (if skip (base ++ [c]) t then [] else visitIg skip (base ++ [c]) d t)
        ++ visitIgEntries skip base d es

end

/-- The scanner under an arbitrary ignore/error filter `skip`. -/
def scan_reposIg (skip : List Component → FsNode → Bool) (base : List Component)
    (t : FsNode) (max_depth : Nat) : List GitRepo :=
  sortByName (collectRepos (visitIg skip base max_depth t))

def SubsetSpec (skip : List Component → FsNode → Bool) (base : List Component)
    (d : Nat) (t : FsNode) : Prop :=
  ∀ x, x ∈ visitIg skip base d t → x ∈ visit base d t

def SubsetEntriesSpec (skip : List Component → FsNode → Bool) (base : List Component)
    (d : Nat) (es : List (Component × FsNode)) : Prop :=
  ∀ x, x ∈ visitIgEntries skip base d es → x ∈ visitEntries base d es

/-- The example tree of the specification: `root/a/.git/` and
`root/b/c/.git/`. -/
def exTree : FsNode :=
  .dir [(.valid "a", .dir [(.valid ".git", .dir [])]),
        (.valid "b", .dir [(.valid "c", .dir [(.valid ".git", .dir [])])])]

/-! ## Cache data model (`src/cache.rs`) -/

/-- A repository record as the cache serializes it: the `name` string and
the rendering `path.display()` of the path, both modelled as character
lists (Rust strings restricted to the characters relevant here). -/
structure RepoRecord where
  name : List Char
  path : List Char
deriving DecidableEq

/-- One line of `Cache::save`: `format!("{}\t{}", repo.name, repo.path.display())`. -/
def recordLine (r : RepoRecord) : List Char := r.name ++ '\t' :: r.path

/-- Model of the `Cache::save` payload: the record lines joined with `"\n"`. -/
def serializeRepos (repos : List RepoRecord) : List Char :=
  List.intercalate ['\n'] (repos.map recordLine)

/-- Strip one trailing carriage return, as `str::lines` does on every
line that was terminated by a newline. -/
def stripCR (l : List Char) : List Char :=
  if l.getLast? = some '\r' then l.dropLast else l

/-- The segment handling of Rust `str::lines`: every segment before the
last had a terminating newline, so it loses one trailing `\r`; a final
empty segment (text ended with a newline, or was empty) yields no line;
a final nonempty segment is kept as is. -/
def processParts : List (List Char) → List (List Char)
  | [] => []
  | [l] => if l = [] then [] else [l]
  | l :: ls => stripCR l :: processParts ls

/-- Rust `contents.lines()`: split on the newline character with
terminator semantics and `\r\n` handling. -/
def rustLines (s : List Char) : List (List Char) :=
  processParts (s.splitOn '\n')

/-- The per-line parser of `Cache::load`: split the line on the tab
character; keep it only if that yields exactly two fields, name first. -/
def parseLine (l : List Char) : Option RepoRecord :=
  match l.splitOn '\t' with
  | [n, p] => some ⟨n, p⟩
  | _ => none

/-- The pure part of `Cache::load`: parse the file text, silently
dropping malformed lines. -/
def loadRepos (contents : List Char) : List RepoRecord :=
  (rustLines contents).filterMap parseLine

/-- Model of `Cache::load` with its one failure mode: `none` stands for a file
that cannot be opened or read (the `fs::read_to_string` error). -/
def load (file : Option (List Char)) : Except Unit (List RepoRecord) :=
  match file with
  | some contents => .ok (loadRepos contents)
  | none => .error ()

/-- What probing the entry file can observe in `Cache::is_valid`:
no file (`exists()` false), unreadable metadata (`fs::metadata` error),
metadata without a modification time (`modified()` error), or a
modification time `t` (in whole seconds). -/
inductive MtimeProbe where
  | absent
  | unreadable
  | noMtime
  | mtime (t : Nat)

/-- Model of `Cache::is_valid`: false on every probe failure; on a modification
time `m`, false when `m` is in the future (`duration_since` error),
otherwise `age < ttl` with `age = now - m`. -/
def is_valid (ttl now : Nat) (probe : MtimeProbe) : Bool :=
  match probe with
  | .absent => false
  | .unreadable => false
  | .noMtime => false
  | .mtime m => if now < m then false else decide (now - m < ttl)

/-- The cache directory as `Cache::clear` sees it: whether it exists and
which entry files it holds. -/
structure CacheDirState where
  present : Bool
  entries : List (List Char)
deriving DecidableEq

/-- Model of `Cache::clear`: only if the directory exists is it removed
recursively and recreated empty; an absent directory is left alone. -/
def clearCache (s : CacheDirState) : CacheDirState :=
  if s.present then { present := true, entries := [] } else s

/-! ## Cache fingerprint: SHA-256 (`Cache::cache_file_path`) -/

/-- The constant `2 ^ 32`, the modulus of the 32-bit words of SHA-256. -/
def M32 : Nat := 4294967296

/-- 32-bit modular addition. -/
def add32 (a b : Nat) : Nat := (a + b) % M32

/-- 32-bit right rotation. -/
def rotr32 (n a : Nat) : Nat := (a / 2 ^ n + a % 2 ^ n * 2 ^ (32 - n)) % M32

/-- Right shift. -/
def shr32 (n a : Nat) : Nat := a / 2 ^ n

def xor32 (a b : Nat) : Nat := a.xor b

def and32 (a b : Nat) : Nat := a.land b

/-- 32-bit complement. -/
def not32 (a : Nat) : Nat := a.xor (M32 - 1)

def bigSigma0 (x : Nat) : Nat := xor32 (xor32 (rotr32 2 x) (rotr32 13 x)) (rotr32 22 x)

def bigSigma1 (x : Nat) : Nat := xor32 (xor32 (rotr32 6 x) (rotr32 11 x)) (rotr32 25 x)

def smallSigma0 (x : Nat) : Nat := xor32 (xor32 (rotr32 7 x) (rotr32 18 x)) (shr32 3 x)

def smallSigma1 (x : Nat) : Nat := xor32 (xor32 (rotr32 17 x) (rotr32 19 x)) (shr32 10 x)

def chB (e f g : Nat) : Nat := xor32 (and32 e f) (and32 (not32 e) g)

def majB (a b c : Nat) : Nat := xor32 (xor32 (and32 a b) (and32 a c)) (and32 b c)

/-- The 64 round constants of SHA-256. -/
def K256 : List Nat :=
  [1116352408, 1899447441, 3049323471, 3921009573, 961987163, 1508970993, 2453635748, 2870763221,
   3624381080, 310598401, 607225278, 1426881987, 1925078388, 2162078206, 2614888103, 3248222580,
   3835390401, 4022224774, 264347078, 604807628, 770255983, 1249150122, 1555081692, 1996064986,
   2554220882, 2821834349, 2952996808, 3210313671, 3336571891, 3584528711, 113926993, 338241895,
   666307205, 773529912, 1294757372, 1396182291, 1695183700, 1986661051, 2177026350, 2456956037,
   2730485921, 2820302411, 3259730800, 3345764771, 3516065817, 3600352804, 4094571909, 275423344,
   430227734, 506948616, 659060556, 883997877, 958139571, 1322822218, 1537002063, 1747873779,
   1955562222, 2024104815, 2227730452, 2361852424, 2428436474, 2756734187, 3204031479, 3329325298]

/-- The initial hash state of SHA-256. -/
def H256 : List Nat :=
  [1779033703, 3144134277, 1013904242, 2773480762,
   1359893119, 2600822924, 528734635, 1541459225]

/-- The 8-byte big-endian encoding of the message bit length. -/
def lenBytes (n : Nat) : List Nat :=
  (List.range 8).map (fun i => n / 2 ^ (8 * (7 - i)) % 256)

/-- SHA-256 padding: `0x80`, zeros until the length is 56 mod 64, then
the 8-byte bit length.  The zero count `z` solves
`L + 1 + z = 56 (mod 64)`, i.e. `z = (119 - L % 64) % 64`, written so
that the subtraction never truncates (`L % 64 <= 63 < 119`). -/
def padMessage (msg : List Nat) : List Nat :=
  msg ++ 128 :: List.replicate ((119 - msg.length % 64) % 64) 0
      ++ lenBytes (msg.length * 8)

/-- Split a byte list into 64-byte chunks (structural recursion with an
accumulator holding the current chunk in reverse). -/
def chunksGo : List Nat → List Nat → List (List Nat)
  | acc, [] => if acc = [] then [] else [acc.reverse]
  | acc, b :: rest =>
      if acc.length = 63 then (b :: acc).reverse :: chunksGo [] rest
      else chunksGo (b :: acc) rest

/-- Split a byte list into 64-byte chunks. -/
def toChunks (l : List Nat) : List (List Nat) := chunksGo [] l

/-- The 16 big-endian 32-bit words of one 64-byte chunk. -/
def chunkWords (c : List Nat) : List Nat :=
  (List.range 16).map (fun i =>
    c.getD (4 * i) 0 * 16777216 + c.getD (4 * i + 1) 0 * 65536 +
      c.getD (4 * i + 2) 0 * 256 + c.getD (4 * i + 3) 0)

/-- Iterate a function `n` times. -/
def iterate (f : α → α) : Nat → α → α
  | 0, a => a
  | n + 1, a => iterate f n (f a)

/-- One step of the message-schedule extension. -/
def extendStep (w : List Nat) : List Nat :=
  w ++ [add32 (add32 (w.getD (w.length - 16) 0) (smallSigma0 (w.getD (w.length - 15) 0)))
          (add32 (w.getD (w.length - 7) 0) (smallSigma1 (w.getD (w.length - 2) 0)))]

/-- Extend 16 schedule words to 64. -/
def schedule (w16 : List Nat) : List Nat := iterate extendStep 48 w16

/-- One round of the SHA-256 compression function; the state is the
8-word list `[a, b, c, d, e, f, g, h]`. -/
def roundStep (s : List Nat) (kw : Nat × Nat) : List Nat :=
  let a := s.getD 0 0
  let b := s.getD 1 0
  let c := s.getD 2 0
  let dd := s.getD 3 0
  let e := s.getD 4 0
  let f := s.getD 5 0
  let g := s.getD 6 0
  let hh := s.getD 7 0
  let t1 := add32 hh (add32 (bigSigma1 e) (add32 (chB e f g) (add32 kw.1 kw.2)))
  let t2 := add32 (bigSigma0 a) (majB a b c)
  [add32 t1 t2, a, b, c, add32 dd t1, e, f, g]

/-- Compress one 64-byte chunk into the hash state. -/
def compressChunk (h : List Nat) (chunk : List Nat) : List Nat :=
  let s := (K256.zip (schedule (chunkWords chunk))).foldl roundStep h
  (h.zip s).map (fun p => add32 p.1 p.2)

/-- SHA-256 of a byte list, as eight 32-bit words. -/
def sha256 (msg : List Nat) : List Nat :=
  (toChunks (padMessage msg)).foldl compressChunk H256

/-- Lowercase hexadecimal digit. -/
def hexDigit (n : Nat) : Char := if n < 10 then Char.ofNat (48 + n) else Char.ofNat (87 + n)

/-- The 8 hex characters of one 32-bit word, most significant first. -/
def hexWord (x : Nat) : List Char :=
  (List.range 8).map (fun i => hexDigit (x / 16 ^ (7 - i) % 16))

/-- Model of the digest rendering: the 64-character lowercase hex
rendering of the digest. -/
def sha256Hex (msg : List Nat) : List Char :=
  ((sha256 msg).map hexWord).flatten

/-- The bytes of an ASCII path string, as
`search_path.to_string_lossy().as_bytes()` yields them. -/
def asciiBytes (s : String) : List Nat := s.data.map Char.toNat

/-- The cache key: the first 16 hex characters of the SHA-256 of the
path bytes. -/
def fingerprint (pathBytes : List Nat) : List Char := (sha256Hex pathBytes).take 16

/-- Model of the `Cache::cache_file_path` file name: `repos_<16 hex chars>.cache`. -/
def cacheFileName (pathBytes : List Nat) : List Char :=
  "repos_".data ++ fingerprint pathBytes ++ ".cache".data

/-! ## Relative time formatter (`src/preview.rs`) -/

/-- Model of `format_duration` from `src/preview.rs`.  The argument is
`duration.num_seconds()` (whole seconds of a `chrono::Duration`, possibly
negative); `.abs()` is modelled by `Int.natAbs`, and all further
arithmetic is on nonnegative whole seconds exactly as in the source. -/
def format_duration (d : Int) : String :=
  let seconds := d.natAbs
  if seconds < 60 then toString seconds ++ " seconds ago"
  else if seconds < 3600 then toString (seconds / 60) ++ " minutes ago"
  else if seconds < 86400 then toString (seconds / 3600) ++ " hours ago"
  else if seconds < 604800 then toString (seconds / 86400) ++ " days ago"
  else if seconds < 2592000 then toString (seconds / 604800) ++ " weeks ago"
  else if seconds < 31536000 then toString (seconds / 2592000) ++ " months ago"
  else toString (seconds / 31536000) ++ " years ago"

/-! ## Scanner theorems -/

theorem collectRepos_nil : collectRepos [] = [] := rfl

theorem collectRepos_cons (e : List Component × FsNode) (l : List (List Component × FsNode)) :
    collectRepos (e :: l) =
      (if e.1.getLast? = some (Component.valid ".git") ∧ e.2.isDir = true
       then [GitRepo.new e.1.dropLast] else []) ++ collectRepos l := by
  by_cases h : e.1.getLast? = some (Component.valid ".git") ∧ e.2.isDir = true <;>
    simp [collectRepos, List.filterMap_cons, h]

theorem collectRepos_append (l₁ l₂ : List (List Component × FsNode)) :
    collectRepos (l₁ ++ l₂) = collectRepos l₁ ++ collectRepos l₂ := by
  simp [collectRepos]

theorem mem_ite_singleton {P : Prop} [Decidable P] {x r : GitRepo} :
    r ∈ (if P then [x] else ([] : List GitRepo)) ↔ P ∧ r = x := by
  split <;> rename_i h <;> simp [h]

theorem mem_collect_visit : ∀ (base : List Component) (d : Nat) (t : FsNode),
    MemSpec base d t := by
  refine visit.induct MemSpec MemEntriesSpec ?_ ?_ ?_ ?_
  · -- file node
    intro base d r
    simp only [visit, collectRepos_cons, collectRepos_nil, List.append_nil,
      mem_ite_singleton]
    constructor
    · rintro ⟨⟨_, hdir⟩, _⟩
      simp [FsNode.isDir] at hdir
    · rintro (⟨_, hdir, _⟩ | ⟨p, hp, _, _⟩)
      · simp [FsNode.isDir] at hdir
      · cases hp
  · -- dir node
    intro base d es ih r
    cases d with
    | zero =>
      simp only [visit, collectRepos_cons, collectRepos_nil, List.append_nil,
        mem_ite_singleton]
      constructor
      · rintro ⟨⟨h1, _⟩, h3⟩
        exact .inl ⟨h1, rfl, h3⟩
      · rintro (⟨h1, _, h3⟩ | ⟨p, _, hlen, _⟩)
        · exact ⟨⟨h1, rfl⟩, h3⟩
        · exact absurd hlen (Nat.not_lt_zero _)
    | succ d' =>
      simp only [visit, collectRepos_cons, List.mem_append, mem_ite_singleton,
        ih d' r]
      constructor
      · rintro (⟨⟨h1, _⟩, h3⟩ | (⟨e, he, hn, hd, h3⟩ | ⟨c, t, p, hmem, hp, hlen, h3⟩))
        · exact .inl ⟨h1, rfl, h3⟩
        · exact .inr ⟨[], RepoAt.here e he hn hd, Nat.succ_pos _, by simpa using h3⟩
        · exact .inr ⟨c :: p, RepoAt.there hmem hp, Nat.succ_lt_succ hlen, h3⟩
      · rintro (⟨h1, _, h3⟩ | ⟨p, hp, hlen, h3⟩)
        · exact .inl ⟨⟨h1, rfl⟩, h3⟩
        · cases hp with
          | here e he hn hd =>
              exact .inr (.inl ⟨e, he, hn, hd, by simpa using h3⟩)
          | there hmem hp' =>
              exact .inr (.inr ⟨_, _, _, hmem, hp', Nat.lt_of_succ_lt_succ hlen, h3⟩)
  · -- empty entry list
    intro base d r
    simp only [visitEntries, collectRepos_nil]
    simp
  · -- entry cons
    intro base d c t es ih1 ih2 r
    simp only [visitEntries, collectRepos_append, List.mem_append]
    rw [ih1 r, ih2 r]
    constructor
    · rintro ((⟨h1, h2, h3⟩ | ⟨p, hp, hlen, h3⟩) | (⟨e, he, hn, hd, h3⟩ | ⟨c', t', p, hmem, hp, hlen, h3⟩))
      · have hc : c = Component.valid ".git" := by simpa using h1
        subst hc
        refine .inl ⟨(Component.valid ".git", t), List.mem_cons_self _ _, rfl, h2, ?_⟩
        rw [h3, List.dropLast_concat]
      · refine .inr ⟨c, t, p, List.mem_cons_self _ _, hp, hlen, ?_⟩
        rw [h3]
        simp
      · exact .inl ⟨e, List.mem_cons_of_mem _ he, hn, hd, h3⟩
      · exact .inr ⟨c', t', p, List.mem_cons_of_mem _ hmem, hp, hlen, h3⟩
    · rintro (⟨e, he, hn, hd, h3⟩ | ⟨c', t', p, hmem, hp, hlen, h3⟩)
      · rcases List.mem_cons.mp he with rfl | he'
        · refine .inl (.inl ⟨?_, hd, ?_⟩)
          · rw [List.getLast?_concat]
            exact congrArg some hn
          · rw [List.dropLast_concat]
            exact h3
        · exact .inr (.inl ⟨e, he', hn, hd, h3⟩)
      · rcases List.mem_cons.mp hmem with heq | hmem'
        · obtain ⟨h1', h2'⟩ := Prod.ext_iff.mp heq
          cases h1'
          cases h2'
          refine .inl (.inr ⟨p, hp, hlen, ?_⟩)
          rw [h3]
          simp
        · exact .inr (.inr ⟨c', t', p, hmem', hp, hlen, h3⟩)

/-- Membership in a scan result: a record is reported exactly when it is
built from the parent of a visited `.git` directory — either the scan
root itself is a directory named `.git`, or a repository root lies at
some relative path `p` whose marker (at depth `p.length + 1`) is within
the depth bound. -/
theorem mem_scan_iff (base : List Component) (t : FsNode) (d : Nat) (r : GitRepo) :
    r ∈ scan_repos base t d ↔
      (base.getLast? = some (Component.valid ".git") ∧ t.isDir = true ∧
        r = GitRepo.new base.dropLast)
      ∨ ∃ p, RepoAt t p ∧ p.length < d ∧ r = GitRepo.new (base ++ p) := by
  have hperm : List.Perm (scan_repos base t d) (collectRepos (visit base d t)) :=
    List.perm_insertionSort _ _
  rw [hperm.mem_iff]
  exact mem_collect_visit base d t r

theorem charListLe_cons_iff (a b : Char) (as bs : List Char) :
    charListLe (a :: as) (b :: bs) = true ↔
      a.toNat < b.toNat ∨ (a.toNat = b.toNat ∧ charListLe as bs = true) := by
  simp only [charListLe]
  by_cases h : a.toNat < b.toNat
  · simp [h]
  · by_cases h' : b.toNat < a.toNat
    · simp [h, h', show a.toNat ≠ b.toNat by omega]
    · simp [h, h', show a.toNat = b.toNat by omega]

theorem charListLe_refl : ∀ l, charListLe l l = true
  | [] => rfl
  | a :: as => by
      rw [charListLe_cons_iff]
      exact .inr ⟨rfl, charListLe_refl as⟩

theorem charListLe_total : ∀ l₁ l₂, charListLe l₁ l₂ = true ∨ charListLe l₂ l₁ = true
  | [], _ => .inl rfl
  | _ :: _, [] => .inr rfl
  | a :: as, b :: bs => by
      rw [charListLe_cons_iff, charListLe_cons_iff]
      rcases Nat.lt_trichotomy a.toNat b.toNat with h | h | h
      · exact .inl (.inl h)
      · rcases charListLe_total as bs with h' | h'
        · exact .inl (.inr ⟨h, h'⟩)
        · exact .inr (.inr ⟨h.symm, h'⟩)
      · exact .inr (.inl h)

theorem charListLe_trans : ∀ l₁ l₂ l₃, charListLe l₁ l₂ = true →
    charListLe l₂ l₃ = true → charListLe l₁ l₃ = true
  | [], _, _, _, _ => rfl
  | _ :: _, [], _, h, _ => by simp [charListLe] at h
  | _ :: _, _ :: _, [], _, h => by simp [charListLe] at h
  | a :: as, b :: bs, c :: cs, h₁, h₂ => by
      rw [charListLe_cons_iff] at h₁ h₂ ⊢
      rcases h₁ with h₁ | ⟨h₁, h₁'⟩ <;> rcases h₂ with h₂ | ⟨h₂, h₂'⟩
      · exact .inl (by omega)
      · exact .inl (by omega)
      · exact .inl (by omega)
      · exact .inr ⟨by omega, charListLe_trans as bs cs h₁' h₂'⟩

theorem filter_name_orderedInsert (n : String) (a : GitRepo) (l : List GitRepo) :
    (l.orderedInsert (fun x y => nameLe x y = true) a).filter (fun r => r.name == n)
      = if a.name = n then a :: l.filter (fun r => r.name == n)
        else l.filter (fun r => r.name == n) := by
  induction l with
  | nil =>
    by_cases h : a.name = n <;> simp [List.orderedInsert, h]
  | cons b l ih =>
    simp only [List.orderedInsert]
    by_cases hr : nameLe a b = true
    · rw [if_pos hr]
      by_cases h : a.name = n <;> simp [List.filter_cons, h]
    · rw [if_neg hr]
      rw [List.filter_cons, ih]
      by_cases h : a.name = n
      · have hb : b.name ≠ n := by
          intro he
          exact hr (by simp [nameLe, h ▸ he, charListLe_refl])
        simp [List.filter_cons, h, hb]
      · simp [List.filter_cons, h]

theorem filter_name_sortByName (n : String) (l : List GitRepo) :
    (sortByName l).filter (fun r => r.name == n) = l.filter (fun r => r.name == n) := by
  induction l with
  | nil => rfl
  | cons a l ih =>
    simp only [sortByName, List.insertionSort] at *
    rw [filter_name_orderedInsert, ih]
    by_cases h : a.name = n <;> simp [List.filter_cons, h]

theorem collectRepos_length (v : List (List Component × FsNode)) :
    (collectRepos v).length
      = (v.filter (fun e =>
          decide (e.1.getLast? = some (Component.valid ".git")) && e.2.isDir)).length := by
  induction v with
  | nil => rfl
  | cons e v ih =>
    rw [collectRepos_cons, List.length_append, ih, List.filter_cons]
    by_cases h : e.1.getLast? = some (Component.valid ".git") ∧ e.2.isDir = true
    · have hb : (decide (e.1.getLast? = some (Component.valid ".git")) && e.2.isDir) = true := by
        simp [h.1, h.2]
      simp [h, hb, Nat.add_comm]
    · have hb : (decide (e.1.getLast? = some (Component.valid ".git")) && e.2.isDir) = false := by
        rcases not_and_or.mp h with h1 | h2
        · simp [h1]
        · simp [Bool.not_eq_true] at h2
          simp [h2]
      simp [h, hb]

theorem visitIg_subset_visit (skip : List Component → FsNode → Bool) :
    ∀ (base : List Component) (d : Nat) (t : FsNode), SubsetSpec skip base d t := by
  refine visitIg.induct skip (SubsetSpec skip) (SubsetEntriesSpec skip) ?_ ?_ ?_ ?_
  · intro base d x hx
    simpa [visit, visitIg] using hx
  · intro base d es ih x hx
    cases d with
    | zero =>
        simpa [visit, visitIg] using hx
    | succ d' =>
        simp only [visitIg, List.mem_cons] at hx
        simp only [visit, List.mem_cons]
        rcases hx with hx | hx
        · exact .inl hx
        · exact .inr (ih d' x hx)
  · intro base d x hx
    simp [visitIgEntries] at hx
  · intro base d c t es ih1 ih2 x hx
    simp only [visitIgEntries, List.mem_append] at hx
    simp only [visitEntries, List.mem_append]
    rcases hx with hx | hx
    · by_cases hs : skip (base ++ [c]) t = true
      · rw [if_pos hs] at hx
        simp at hx
      · rw [if_neg hs] at hx
        exact .inl (ih1 x hx)
    · exact .inr (ih2 x hx)

theorem collectRepos_subset {v w : List (List Component × FsNode)}
    (hsub : ∀ x, x ∈ v → x ∈ w) {r : GitRepo}
    (hr : r ∈ collectRepos v) : r ∈ collectRepos w := by
  rw [collectRepos, List.mem_filterMap] at hr ⊢
  obtain ⟨a, ha, hfa⟩ := hr
  exact ⟨a, hsub a ha, hfa⟩

theorem scan_reposIg_subset (skip : List Component → FsNode → Bool)
    (base : List Component) (t : FsNode) (d : Nat) (r : GitRepo)
    (h : r ∈ scan_reposIg skip base t d) : r ∈ scan_repos base t d := by
  have h1 : r ∈ collectRepos (visitIg skip base d t) :=
    (List.perm_insertionSort _ _).subset h
  have h2 : r ∈ collectRepos (visit base d t) :=
    collectRepos_subset (visitIg_subset_visit skip base d t) h1
  exact (List.perm_insertionSort _ _).symm.subset h2

/-- C7: the scan output is sorted by name under codepoint/byte
lexicographic order, is a permutation of the discovered records (so
duplicate names are not deduplicated), keeps records of equal name in
their relative discovery order (stability, expressed as preservation of
every equal-name subsequence), and on a concrete tree with two distinct
repositories both named `project` reports both, in discovery order. -/
theorem scan_output_sorted_stable_no_dedup :
    (∀ (base : List Component) (t : FsNode) (d : Nat),
      (scan_repos base t d).Sorted (fun a b => nameLe a b = true)
      ∧ List.Perm (scan_repos base t d) (collectRepos (visit base d t))
      ∧ ∀ n, (scan_repos base t d).filter (fun r => r.name == n)
          = (collectRepos (visit base d t)).filter (fun r => r.name == n))
    ∧ scan_repos []
        (.dir [(.valid "x", .dir [(.valid "project", .dir [(.valid ".git", .dir [])])]),
               (.valid "y", .dir [(.valid "project", .dir [(.valid ".git", .dir [])])])]) 3
      = [GitRepo.new [Component.valid "x", Component.valid "project"],
         GitRepo.new [Component.valid "y", Component.valid "project"]] := by
  constructor
  · intro base t d
    haveI : IsTotal GitRepo (fun a b => nameLe a b = true) :=
      ⟨fun a b => charListLe_total a.name.data b.name.data⟩
    haveI : IsTrans GitRepo (fun a b => nameLe a b = true) :=
      ⟨fun a b c h h' => charListLe_trans a.name.data b.name.data c.name.data h h'⟩
    exact ⟨List.sorted_insertionSort _ _, List.perm_insertionSort _ _,
      fun n => filter_name_sortByName n _⟩
  · decide

/-- C6: under every filter that the crate's ignore machinery or its
silent skipping of unreadable entries may apply, a reported record is
also reported by the unfiltered walk, and each yielded `.git`-directory
marker contributes exactly one record; in the unfiltered walk (no ignore
rules in effect) a record is reported exactly when it is the parent of a
visited `.git` directory marker — either the scan root itself is named
`.git` and is a directory, or a directory at a relative path within the
depth bound has a direct child named `.git` that is a directory.  In
particular a non-directory named `.git` never produces a record, at any
depth and under any filter, and every record's path is the parent of its
marker. -/
theorem repo_classification (base : List Component) (t : FsNode) (d : Nat) :
    (∀ (skip : List Component → FsNode → Bool) (r : GitRepo),
        r ∈ scan_reposIg skip base t d → r ∈ scan_repos base t d)
    ∧ (∀ skip : List Component → FsNode → Bool,
        (scan_reposIg skip base t d).length
          = ((visitIg skip base d t).filter (fun e =>
              decide (e.1.getLast? = some (Component.valid ".git")) && e.2.isDir)).length)
    ∧ (∀ r, r ∈ scan_repos base t d ↔
        (base.getLast? = some (Component.valid ".git") ∧ t.isDir = true ∧
          r = GitRepo.new base.dropLast)
        ∨ ∃ p, RepoAt t p ∧ p.length < d ∧ r = GitRepo.new (base ++ p)) := by
  refine ⟨fun skip r h => scan_reposIg_subset skip base t d r h, fun skip => ?_,
    fun r => mem_scan_iff base t d r⟩
  exact (List.perm_insertionSort _ _).length_eq.trans (collectRepos_length _)

/-- Witness for C6: under the concrete filter that prunes the subtree
`root/b` of the example tree, the repository `root/a` is reported, and by
the subset clause it is reported by the unfiltered scan as well. -/
theorem repo_classification_witness :
    GitRepo.new [Component.valid "root", Component.valid "a"] ∈
      scan_repos [Component.valid "root"] exTree 3 :=
  (repo_classification [Component.valid "root"] exTree 3).1
    (fun p _ => p.getLast? == some (Component.valid "b"))
    (GitRepo.new [Component.valid "root", Component.valid "a"])
    (by decide)

/-- C2 counterexample: on the specification's own tree
(`root/a/.git/`, `root/b/c/.git/`) a scan with `maxDepth = 1` returns the
empty sequence — in particular it does **not** contain the record for
`root/a` that the claim promises, because the marker `root/a/.git` lies
at depth 2, beyond the bound. -/
theorem scan_depth_one_misses_direct_repo :
    scan_repos [Component.valid "root"] exTree 1 = []
    ∧ decide (GitRepo.new [Component.valid "root", Component.valid "a"] ∈
        scan_repos [Component.valid "root"] exTree 1) = false := by decide

/-- C2 (amended): on the example tree, `maxDepth = 1` finds nothing,
`maxDepth = 2` finds exactly `root/a`, and `maxDepth = 3` finds both,
sorted as `[a, c]` (the tree holds no ignore files, so no ignore rule
applies and the walk is the unfiltered one).  In general the walker
visits entries at most `maxDepth` levels below the root (root = depth
0): under every ignore/error filter the crate may apply, each reported
repository has its `.git` marker within that bound, i.e. its root at
depth at most `maxDepth - 1`; and when no ignore rules are in effect,
every repository whose marker lies within the bound is reported. -/
theorem scan_depth_semantics :
    scan_repos [Component.valid "root"] exTree 1 = []
    ∧ scan_repos [Component.valid "root"] exTree 2
        = [GitRepo.new [Component.valid "root", Component.valid "a"]]
    ∧ scan_repos [Component.valid "root"] exTree 3
        = [GitRepo.new [Component.valid "root", Component.valid "a"],
           GitRepo.new [Component.valid "root", Component.valid "b", Component.valid "c"]]
    ∧ (∀ (skip : List Component → FsNode → Bool) (base : List Component)
        (t : FsNode) (d : Nat) (r : GitRepo),
        r ∈ scan_reposIg skip base t d →
          (base.getLast? = some (Component.valid ".git") ∧ t.isDir = true ∧
            r = GitRepo.new base.dropLast)
          ∨ ∃ p, RepoAt t p ∧ p.length + 1 ≤ d ∧ r = GitRepo.new (base ++ p))
    ∧ (∀ (base : List Component) (t : FsNode) (d : Nat) (p : List Component),
        RepoAt t p → p.length + 1 ≤ d → GitRepo.new (base ++ p) ∈ scan_repos base t d) := by
  refine ⟨by decide, by decide, by decide, ?_, ?_⟩
  · intro skip base t d r hr
    rcases (mem_scan_iff base t d r).mp (scan_reposIg_subset skip base t d r hr) with
      h | ⟨p, hp, hlen, h3⟩
    · exact .inl h
    · exact .inr ⟨p, hp, by omega, h3⟩
  · intro base t d p hp hlen
    exact (mem_scan_iff base t d _).mpr (.inr ⟨p, hp, by omega, rfl⟩)

/-- Witness for the amended C2: applying its completeness part to the
repository `root/a` of the example tree with `maxDepth = 2`. -/
theorem scan_depth_semantics_witness :
    GitRepo.new [Component.valid "root", Component.valid "a"] ∈
      scan_repos [Component.valid "root"] exTree 2 := by
  have h := scan_depth_semantics.2.2.2.2 [Component.valid "root"] exTree 2
    [Component.valid "a"]
    (RepoAt.there (List.mem_cons_self _ _)
      (RepoAt.here (Component.valid ".git", FsNode.dir [])
        (List.mem_cons_self _ _) rfl rfl))
    (by decide)
  simpa using h

/-! ## Cache theorems -/

theorem recordLine_ne_nil (r : RepoRecord) : recordLine r ≠ [] := by
  simp [recordLine]

theorem newline_not_mem_recordLine {r : RepoRecord}
    (h1 : ('\n') ∉ r.name) (h2 : ('\n') ∉ r.path) : ('\n') ∉ recordLine r := by
  simp [recordLine, h1, h2]

theorem recordLine_getLast?_ne_cr {r : RepoRecord} (h : r.path.getLast? ≠ some '\r') :
    (recordLine r).getLast? ≠ some '\r' := by
  unfold recordLine
  rw [List.getLast?_append]
  cases hp : r.path with
  | nil => simp
  | cons x xs =>
      rw [hp] at h
      rw [List.getLast?_cons_cons]
      cases hgl : (x :: xs).getLast? with
      | none => simp at hgl
      | some v =>
          rw [hgl] at h
          simpa [Option.or] using h

theorem processParts_id : ∀ ls : List (List Char),
    (∀ l ∈ ls, l ≠ [] ∧ l.getLast? ≠ some '\r') → processParts ls = ls
  | [], _ => rfl
  | [l], h => by
      have h1 := h l (by simp)
      simp [processParts, h1.1]
  | l :: l' :: ls, h => by
      have h1 := h l (by simp)
      have hrec := processParts_id (l' :: ls) (fun x hx => h x (List.mem_cons_of_mem _ hx))
      show stripCR l :: processParts (l' :: ls) = l :: l' :: ls
      rw [hrec, show stripCR l = l from by simp [stripCR, h1.2]]

theorem rustLines_serializeRepos (repos : List RepoRecord)
    (hnl : ∀ r ∈ repos, ('\n') ∉ r.name ∧ ('\n') ∉ r.path)
    (hcr : ∀ r ∈ repos, r.path.getLast? ≠ some '\r')
    (hne : repos ≠ []) :
    rustLines (serializeRepos repos) = repos.map recordLine := by
  unfold rustLines serializeRepos
  rw [List.splitOn_intercalate]
  · exact processParts_id _ (fun l hl => by
      obtain ⟨r, hr, rfl⟩ := List.mem_map.mp hl
      exact ⟨recordLine_ne_nil r, recordLine_getLast?_ne_cr (hcr r hr)⟩)
  · intro l hl
    obtain ⟨r, hr, rfl⟩ := List.mem_map.mp hl
    exact newline_not_mem_recordLine (hnl r hr).1 (hnl r hr).2
  · simp [hne]

theorem intercalate_pair (x : Char) (a b : List Char) :
    List.intercalate [x] [a, b] = a ++ x :: b := by
  simp [List.intercalate]

theorem parseLine_recordLine {r : RepoRecord}
    (h1 : ('\t') ∉ r.name) (h2 : ('\t') ∉ r.path) :
    parseLine (recordLine r) = some r := by
  unfold parseLine recordLine
  rw [show r.name ++ '\t' :: r.path = List.intercalate ['\t'] [r.name, r.path] from
    (intercalate_pair _ _ _).symm]
  rw [List.splitOn_intercalate]
  · intro l hl
    rcases List.mem_cons.mp hl with rfl | hl'
    · exact h1
    · rcases List.mem_cons.mp hl' with rfl | h
      · exact h2
      · simp at h
  · simp

theorem filterMap_parseLine_map_recordLine : ∀ rs : List RepoRecord,
    (∀ r ∈ rs, ('\t') ∉ r.name ∧ ('\t') ∉ r.path) →
    List.filterMap parseLine (rs.map recordLine) = rs
  | [], _ => rfl
  | r :: rs, h => by
      have h0 := h r (by simp)
      simp only [List.map_cons, List.filterMap_cons, parseLine_recordLine h0.1 h0.2]
      rw [filterMap_parseLine_map_recordLine rs (fun x hx => h x (List.mem_cons_of_mem _ hx))]

/-- C3 (amended): saving then loading returns the original sequence in
order for every record sequence whose names and paths contain no tab and
no newline and whose paths do not end with a carriage return (a
path-final `\r` before a newline is eaten by the line splitter of the
load, see the counterexample); the empty sequence round-trips to the
empty sequence without error. -/
theorem cache_roundtrip (repos : List RepoRecord)
    (htab : ∀ r ∈ repos, ('\t') ∉ r.name ∧ ('\t') ∉ r.path)
    (hnl : ∀ r ∈ repos, ('\n') ∉ r.name ∧ ('\n') ∉ r.path)
    (hcr : ∀ r ∈ repos, r.path.getLast? ≠ some '\r') :
    loadRepos (serializeRepos repos) = repos := by
  cases repos with
  | nil => rfl
  | cons r rs =>
      unfold loadRepos
      rw [rustLines_serializeRepos _ hnl hcr (by simp)]
      exact filterMap_parseLine_map_recordLine _ htab

/-- C3 counterexample: the records `("a", "p\r")` and `("b", "q")`
contain no tab and no newline, yet saving and loading yields
`("a", "p")` and `("b", "q")`: the round-trip fails as claimed because
`str::lines` strips the `\r` that precedes the record separator. -/
theorem cache_roundtrip_cr_counterexample :
    ([RepoRecord.mk ['a'] ['p', '\r'], RepoRecord.mk ['b'] ['q']].all
        (fun r => !r.name.contains '\t' && !r.path.contains '\t'
          && !r.name.contains '\n' && !r.path.contains '\n')) = true
    ∧ loadRepos (serializeRepos [RepoRecord.mk ['a'] ['p', '\r'], RepoRecord.mk ['b'] ['q']])
        = [RepoRecord.mk ['a'] ['p'], RepoRecord.mk ['b'] ['q']]
    ∧ decide (loadRepos (serializeRepos
          [RepoRecord.mk ['a'] ['p', '\r'], RepoRecord.mk ['b'] ['q']])
        = [RepoRecord.mk ['a'] ['p', '\r'], RepoRecord.mk ['b'] ['q']]) = false := by decide

/-- Witness for the amended C3 at a concrete two-record sequence. -/
theorem cache_roundtrip_witness :
    loadRepos (serializeRepos
      [RepoRecord.mk "repo1".data "/path/to/repo1".data,
       RepoRecord.mk "repo2".data "/path/to/repo2".data])
      = [RepoRecord.mk "repo1".data "/path/to/repo1".data,
         RepoRecord.mk "repo2".data "/path/to/repo2".data] :=
  cache_roundtrip _ (by decide) (by decide) (by decide)

theorem parseLine_eq_filter_form (l : List Char) :
    parseLine l = if (l.splitOn '\t').length = 2
      then some ⟨(l.splitOn '\t').headD [], (l.splitOn '\t').getD 1 []⟩
      else none := by
  rcases h : l.splitOn '\t' with _ | ⟨n, _ | ⟨p, _ | ⟨x, xs⟩⟩⟩ <;> simp [parseLine, h]

theorem filterMap_eq_filter_map_parse : ∀ ls : List (List Char),
    ls.filterMap parseLine
      = (ls.filter (fun l => (l.splitOn '\t').length == 2)).map
          (fun l => ⟨(l.splitOn '\t').headD [], (l.splitOn '\t').getD 1 []⟩)
  | [] => rfl
  | l :: ls => by
      rw [List.filterMap_cons, List.filter_cons, parseLine_eq_filter_form l]
      by_cases h : (l.splitOn '\t').length = 2
      · rw [if_pos h]
        simp [h, filterMap_eq_filter_map_parse ls]
      · rw [if_neg h]
        simp [h, filterMap_eq_filter_map_parse ls]

/-- C5: loading never fails on readable file text; the result is exactly
one record per line that splits on the tab character into two fields,
kept in file order with the first field as name and the second as path;
every other line is silently dropped; reading failure is the only error.
Concretely, one well-formed line plus one tab-free line load as the
single well-formed record. -/
theorem load_malformed_line_tolerance :
    (load none = .error ())
    ∧ (∀ contents, load (some contents) = .ok (loadRepos contents))
    ∧ (∀ contents, loadRepos contents
        = ((rustLines contents).filter (fun l => (l.splitOn '\t').length == 2)).map
            (fun l => ⟨(l.splitOn '\t').headD [], (l.splitOn '\t').getD 1 []⟩))
    ∧ loadRepos "a\tp\nmalformed".data = [⟨"a".data, "p".data⟩] :=
  ⟨rfl, fun _ => rfl, fun _ => filterMap_eq_filter_map_parse _, by decide⟩

/-- C4: `is_valid` is true exactly when the probe reaches a modification
time `m` that is not in the future and whose age `now - m` is strictly
below the TTL; with TTL zero it is false on every probe; every probing
failure yields `false`, never an error (the function is total into
`Bool`). -/
theorem is_valid_characterization :
    ∀ (ttl now : Nat) (probe : MtimeProbe),
      (is_valid ttl now probe = true ↔
        ∃ m, probe = .mtime m ∧ m ≤ now ∧ now - m < ttl)
      ∧ is_valid 0 now probe = false := by
  intro ttl now probe
  constructor
  · cases probe with
    | absent => simp [is_valid]
    | unreadable => simp [is_valid]
    | noMtime => simp [is_valid]
    | mtime m =>
        by_cases hm : now < m
        · simp only [is_valid, if_pos hm, Bool.false_eq_true, false_iff]
          rintro ⟨m', hm', h1, h2⟩
          cases hm'
          omega
        · simp only [is_valid, if_neg hm, decide_eq_true_eq]
          constructor
          · intro h
            exact ⟨m, rfl, by omega, h⟩
          · rintro ⟨m', hm', h1, h2⟩
            cases hm'
            exact h2
  · cases probe <;> simp [is_valid]

/-- C9 counterexample: when the storage area does not exist, `clear`
succeeds but leaves it absent — afterwards the storage area does *not*
exist, contradicting the claimed postcondition. -/
theorem clear_absent_dir_counterexample :
    clearCache { present := false, entries := [] } = { present := false, entries := [] }
    ∧ (clearCache { present := false, entries := [] }).present = false := by decide

/-- C9 (amended): when the storage area exists, a successful `clear`
removes it recursively and recreates it empty, so afterwards it exists
and holds no cache entry for any search path (the operation is not
scoped to one fingerprint); when the storage area does not exist,
`clear` succeeds and leaves the state unchanged (still no entries). -/
theorem clear_semantics :
    (∀ s : CacheDirState, s.present = true →
      clearCache s = { present := true, entries := [] })
    ∧ (∀ s : CacheDirState, s.present = false → clearCache s = s) := by
  constructor <;> intro s h <;> simp [clearCache, h]

/-- Witness for the amended C9: clearing an existing directory holding
one entry empties it; clearing an absent one is the identity. -/
theorem clear_semantics_witness :
    clearCache { present := true, entries := [['x']] }
      = { present := true, entries := [] }
    ∧ clearCache { present := false, entries := [] }
      = { present := false, entries := [] } :=
  ⟨clear_semantics.1 _ rfl, clear_semantics.2 _ rfl⟩

/-- C10: the record name falls back to the literal `"unknown"` exactly
when the path has no final component or its final component is not valid
UTF-8; otherwise it is the final component; the stored path is the one
given. -/
theorem gitRepo_new_name_fallback :
    (∀ p : List Component, p.getLast? = none → (GitRepo.new p).name = "unknown")
    ∧ (∀ p : List Component, p.getLast? = some Component.invalid →
        (GitRepo.new p).name = "unknown")
    ∧ (∀ (p : List Component) (s : String), p.getLast? = some (Component.valid s) →
        (GitRepo.new p).name = s)
    ∧ (∀ p : List Component, (GitRepo.new p).path = p) := by
  refine ⟨fun p h => ?_, fun p h => ?_, fun p s h => ?_, fun p => rfl⟩ <;>
    simp [GitRepo.new, h]

/-- Witness for C10 at a root path, a non-UTF-8 final component, and an
ordinary path. -/
theorem gitRepo_new_name_fallback_witness :
    (GitRepo.new []).name = "unknown"
    ∧ (GitRepo.new [Component.invalid]).name = "unknown"
    ∧ (GitRepo.new [Component.valid "home", Component.valid "repo"]).name = "repo" :=
  ⟨gitRepo_new_name_fallback.1 [] rfl,
   gitRepo_new_name_fallback.2.1 [Component.invalid] rfl,
   gitRepo_new_name_fallback.2.2.1 _ "repo" rfl⟩

/-! ## Relative time formatter theorems -/

/-- C1: `format_duration` is a total pure function; on `num_seconds`
value `d` it takes `s = |d|` and returns the first matching bucket using
integer floor division, with the exact phrases of the source; each exact
boundary falls into the next bucket up, and a negative duration formats
exactly like its magnitude. -/
theorem format_duration_buckets :
    (∀ d : Int,
      (d.natAbs < 60 → format_duration d = toString d.natAbs ++ " seconds ago")
      ∧ (60 ≤ d.natAbs → d.natAbs < 3600 →
          format_duration d = toString (d.natAbs / 60) ++ " minutes ago")
      ∧ (3600 ≤ d.natAbs → d.natAbs < 86400 →
          format_duration d = toString (d.natAbs / 3600) ++ " hours ago")
      ∧ (86400 ≤ d.natAbs → d.natAbs < 604800 →
          format_duration d = toString (d.natAbs / 86400) ++ " days ago")
      ∧ (604800 ≤ d.natAbs → d.natAbs < 2592000 →
          format_duration d = toString (d.natAbs / 604800) ++ " weeks ago")
      ∧ (2592000 ≤ d.natAbs → d.natAbs < 31536000 →
          format_duration d = toString (d.natAbs / 2592000) ++ " months ago")
      ∧ (31536000 ≤ d.natAbs →
          format_duration d = toString (d.natAbs / 31536000) ++ " years ago")
      ∧ format_duration (-d) = format_duration d)
    ∧ format_duration 59 = "59 seconds ago"
    ∧ format_duration 60 = "1 minutes ago"
    ∧ format_duration 3600 = "1 hours ago"
    ∧ format_duration 86400 = "1 days ago"
    ∧ format_duration 604800 = "1 weeks ago"
    ∧ format_duration 2592000 = "1 months ago"
    ∧ format_duration 31536000 = "1 years ago"
    ∧ format_duration (-30) = "30 seconds ago" := by
  refine ⟨?_, by decide, by decide, by decide, by decide, by decide, by decide, by decide,
    by decide⟩
  intro d
  refine ⟨?_, ?_, ?_, ?_, ?_, ?_, ?_, ?_⟩
  · intro h
    simp only [format_duration]
    rw [if_pos h]
  · intro h1 h2
    simp only [format_duration]
    rw [if_neg (by omega), if_pos h2]
  · intro h1 h2
    simp only [format_duration]
    rw [if_neg (by omega), if_neg (by omega), if_pos h2]
  · intro h1 h2
    simp only [format_duration]
    rw [if_neg (by omega), if_neg (by omega), if_neg (by omega), if_pos h2]
  · intro h1 h2
    simp only [format_duration]
    rw [if_neg (by omega), if_neg (by omega), if_neg (by omega), if_neg (by omega),
      if_pos h2]
  · intro h1 h2
    simp only [format_duration]
    rw [if_neg (by omega), if_neg (by omega), if_neg (by omega), if_neg (by omega),
      if_neg (by omega), if_pos h2]
  · intro h1
    simp only [format_duration]
    rw [if_neg (by omega), if_neg (by omega), if_neg (by omega), if_neg (by omega),
      if_neg (by omega), if_neg (by omega)]
  · simp [format_duration, Int.natAbs_neg]

/-- Witness for C1, applying the bucket clauses at 45 seconds and at two
hours. -/
theorem format_duration_buckets_witness :
    format_duration 45 = "45 seconds ago" ∧ format_duration 7200 = "2 hours ago" :=
  ⟨((format_duration_buckets.1 45).1 (by decide)).trans (by decide),
   ((format_duration_buckets.1 7200).2.2.1 (by decide) (by decide)).trans (by decide)⟩

/-! ## Fingerprint theorems -/

/-- The SHA-256 embedding reproduces the standard test vectors for the
empty message and for `"abc"`, and the reference digests for 56 and 64
repetitions of `a` — message lengths that exercise the padding residues
56..63 mod 64 (where the zero-pad count wraps to 63..56) and the
two-chunk case. -/
theorem sha256Hex_test_vectors :
    sha256Hex (asciiBytes "abc")
      = "ba7816bf8f01cfea414140de5dae2223b00361a396177a9cb410ff61f20015ad".data
    ∧ sha256Hex (asciiBytes "")
      = "e3b0c44298fc1c149afbf4c8996fb92427ae41e4649b934ca495991b7852b855".data
    ∧ sha256Hex (List.replicate 56 97)
      = "b35439a4ac6f0948b6d6f9e3c6af0f5f590ce20f1bde7090ef7970686ec6738a".data
    ∧ sha256Hex (List.replicate 64 97)
      = "ffe054fe7ae0cb6dc65c3af9b61d5209f439851db43d0ba5997337df154668eb".data := by
  refine ⟨?_, ?_, ?_, ?_⟩
  · set_option maxRecDepth 40000 in decide
  · set_option maxRecDepth 40000 in decide
  · set_option maxRecDepth 80000 in decide
  · set_option maxRecDepth 80000 in decide

theorem roundStep_length (s : List Nat) (kw : Nat × Nat) : (roundStep s kw).length = 8 :=
  rfl

theorem foldl_roundStep_length : ∀ (l : List (Nat × Nat)) (s : List Nat),
    s.length = 8 → (l.foldl roundStep s).length = 8
  | [], _, h => h
  | _ :: l, _, _ => foldl_roundStep_length l _ rfl

theorem compressChunk_length (h c : List Nat) (hh : h.length = 8) :
    (compressChunk h c).length = 8 := by
  unfold compressChunk
  rw [List.length_map, List.length_zip, foldl_roundStep_length _ _ hh, hh]
  rfl

theorem foldl_compressChunk_length : ∀ (cs : List (List Nat)) (s : List Nat),
    s.length = 8 → (cs.foldl compressChunk s).length = 8
  | [], _, h => h
  | c :: cs, s, h => foldl_compressChunk_length cs _ (compressChunk_length s c h)

theorem sha256_length (msg : List Nat) : (sha256 msg).length = 8 :=
  foldl_compressChunk_length _ _ rfl

theorem sha256Hex_length (msg : List Nat) : (sha256Hex msg).length = 64 := by
  unfold sha256Hex
  rw [List.length_flatten, List.map_map]
  rw [show (List.length ∘ hexWord) = fun _ => 8 from funext fun x => by simp [hexWord]]
  rw [List.map_const', List.sum_replicate, sha256_length]
  rfl

/-- C8: the cache entry file name is `repos_` followed by the first 16
hexadecimal characters of the SHA-256 digest of the raw path bytes and
the extension `.cache`; the key is a fixed-length (16) deterministic pure
function of the bytes; and on the specification's own distinctness
instances — a path versus the same path with a trailing separator, and
two different paths — the keys differ (universal distinctness is the
collision resistance of SHA-256, a cryptographic assumption outside the
model; it is checked here on the named concrete instances). -/
theorem fingerprint_cache_key :
    (∀ bs : List Nat, cacheFileName bs
        = "repos_".data ++ (sha256Hex bs).take 16 ++ ".cache".data)
    ∧ (∀ bs : List Nat, fingerprint bs = fingerprint bs)
    ∧ (∀ bs : List Nat, (fingerprint bs).length = 16)
    ∧ decide (fingerprint (asciiBytes "/home/user")
        = fingerprint (asciiBytes "/home/user/")) = false
    ∧ decide (fingerprint (asciiBytes "/home/user")
        = fingerprint (asciiBytes "/home/other")) = false := by
  refine ⟨fun bs => rfl, fun bs => rfl, ?_,
    by set_option maxRecDepth 40000 in decide, by set_option maxRecDepth 40000 in decide⟩
  intro bs
  simp [fingerprint, List.length_take, sha256Hex_length]
